import Mathlib

/-! Verification of the magnetization-configuration module (engine/config.go)
and of the httpfs Create utility (httpfs/util.go).

The Go code computes with IEEE-754 doubles.  On every path analysed here the
only non-finite value that can arise is NaN (each division whose denominator
is zero also has a zero numerator), so doubles are embedded as `RF`: either a
finite real number or NaN, with NaN-propagating arithmetic.  Division by zero
yields NaN, square roots of negative numbers yield NaN, and `acos` outside
[-1, 1] yields NaN, exactly as in Go's math package on these paths. -/

noncomputable section

namespace Engine

/-- A float64 value as produced by the analysed code: a finite real or NaN. -/
inductive RF : Type where
  | nan : RF
  | fin : ℝ → RF

namespace RF

/-- Go float64 addition: NaN-propagating real addition. -/
def add : RF → RF → RF
  | fin a, fin b => fin (a + b)
  | _, _ => nan

/-- Go float64 subtraction. -/
def sub : RF → RF → RF
  | fin a, fin b => fin (a - b)
  | _, _ => nan

/-- Go float64 multiplication. -/
def mul : RF → RF → RF
  | fin a, fin b => fin (a * b)
  | _, _ => nan

/-- Go float64 negation. -/
def neg : RF → RF
  | fin a => fin (-a)
  | nan => nan

/-- Go float64 division.  A zero denominator produces NaN; on the analysed
paths the numerator is zero whenever the denominator is, so the IEEE
infinite quotients never occur. -/
def div : RF → RF → RF
  | fin a, fin b => if b = 0 then nan else fin (a / b)
  | _, _ => nan

/-- math.Sqrt: NaN on negative arguments. -/
def sqrt : RF → RF
  | fin a => if a < 0 then nan else fin (Real.sqrt a)
  | nan => nan

/-- math.Exp. -/
def exp : RF → RF
  | fin a => fin (Real.exp a)
  | nan => nan

/-- math.Cos. -/
def cos : RF → RF
  | fin a => fin (Real.cos a)
  | nan => nan

/-- math.Sin. -/
def sin : RF → RF
  | fin a => fin (Real.sin a)
  | nan => nan

/-- math.Acos: NaN outside [-1, 1]. -/
def acos : RF → RF
  | fin a => if a < -1 ∨ 1 < a then nan else fin (Real.arccos a)
  | nan => nan

/-- math.Abs. -/
def abs : RF → RF
  | fin a => fin |a|
  | nan => nan

/-- math.IsNaN. -/
def isNaN : RF → Bool
  | nan => true
  | fin _ => false

instance : Add RF := ⟨add⟩

instance : Sub RF := ⟨sub⟩

instance : Mul RF := ⟨mul⟩

instance : Neg RF := ⟨neg⟩

instance : Div RF := ⟨div⟩

@[simp] theorem fin_add_fin (a b : ℝ) : fin a + fin b = fin (a + b) := rfl

@[simp] theorem nan_add (x : RF) : nan + x = nan := rfl

@[simp] theorem add_nan (x : RF) : x + nan = nan := by cases x <;> rfl

@[simp] theorem fin_sub_fin (a b : ℝ) : fin a - fin b = fin (a - b) := rfl

@[simp] theorem nan_sub (x : RF) : nan - x = nan := rfl

@[simp] theorem sub_nan (x : RF) : x - nan = nan := by cases x <;> rfl

@[simp] theorem fin_mul_fin (a b : ℝ) : fin a * fin b = fin (a * b) := rfl

@[simp] theorem nan_mul (x : RF) : nan * x = nan := rfl

@[simp] theorem mul_nan (x : RF) : x * nan = nan := by cases x <;> rfl

@[simp] theorem neg_fin (a : ℝ) : -fin a = fin (-a) := rfl

@[simp] theorem neg_nan : -(nan : RF) = nan := rfl

theorem fin_div_fin {b : ℝ} (hb : b ≠ 0) (a : ℝ) :
    fin a / fin b = fin (a / b) := by
  show div (fin a) (fin b) = _
  simp [div, hb]

@[simp] theorem fin_div_fin_zero (a : ℝ) : fin a / fin 0 = nan := by
  show div (fin a) (fin 0) = _
  simp [div]

@[simp] theorem nan_div (x : RF) : nan / x = nan := rfl

@[simp] theorem div_nan (x : RF) : x / nan = nan := by cases x <;> rfl

theorem sqrt_fin {a : ℝ} (h : 0 ≤ a) : sqrt (fin a) = fin (Real.sqrt a) := by
  simp [sqrt, not_lt.mpr h]

@[simp] theorem sqrt_nan : sqrt nan = nan := rfl

@[simp] theorem exp_fin (a : ℝ) : exp (fin a) = fin (Real.exp a) := rfl

@[simp] theorem exp_nan : exp nan = nan := rfl

@[simp] theorem cos_fin (a : ℝ) : cos (fin a) = fin (Real.cos a) := rfl

@[simp] theorem cos_nan : cos nan = nan := rfl

@[simp] theorem sin_fin (a : ℝ) : sin (fin a) = fin (Real.sin a) := rfl

@[simp] theorem sin_nan : sin nan = nan := rfl

theorem acos_fin {a : ℝ} (h1 : -1 ≤ a) (h2 : a ≤ 1) :
    acos (fin a) = fin (Real.arccos a) := by
  simp [acos, not_lt.mpr h1, not_lt.mpr h2]

@[simp] theorem acos_nan : acos nan = nan := rfl

@[simp] theorem abs_fin (a : ℝ) : abs (fin a) = fin |a| := rfl

@[simp] theorem abs_nan : abs nan = nan := rfl

@[simp] theorem isNaN_fin (a : ℝ) : isNaN (fin a) = false := rfl

@[simp] theorem isNaN_nan : isNaN nan = true := rfl

end RF

open RF

/-- data.Vector: a 3-component float64 vector; the fields x, y, z are the
components the Go code writes as v[X], v[Y], v[Z]. -/
structure Vec3 where
  x : RF
  y : RF
  z : RF

/-- Squared Euclidean norm of a vector, the quantity the spec constrains for
the unit-magnetization generators. -/
def Vec3.normSq (v : Vec3) : RF := v.x * v.x + v.y * v.y + v.z * v.z

/-- Magnetic configuration: returns the m vector for position (x,y,z). -/
def Config : Type := ℝ → ℝ → ℝ → Vec3

/-- noNaN from config.go: if any component is NaN, substitute (0,0,pol). -/
def noNaN (v : Vec3) (pol : ℤ) : Vec3 :=
  if v.x.isNaN || v.y.isNaN || v.z.isNaN then ⟨fin 0, fin 0, fin (pol : ℝ)⟩
  else v

/-- Modelled from the spec: the helper sqr64 (declared outside src/) squares a
float64; the spec writes Vortex's core factor as exp(-r^2/(2 cellSizeX^2)) and
TwoDomain's weight as exp(-(x/ww)^2).  Real-valued version, applied at
construction time where no NaN can occur. -/
def sqr64 (a : ℝ) : ℝ := a * a

/-- sqr64 applied at evaluation time, on NaN-tracking values. -/
def RF.sqr64 (a : RF) : RF := a * a

/-- Uniform from config.go: constant field. -/
def Uniform (mx my mz : ℝ) : Config :=
  fun _x _y _z => ⟨fin mx, fin my, fin mz⟩

/-- Vortex from config.go.  Mesh().CellSize()[X] enters as the parameter
cellSizeX, read once at construction time. -/
def Vortex (cellSizeX : ℝ) (circ pol : ℤ) : Config :=
  let diam2 := 2 * Engine.sqr64 cellSizeX
  fun x y _z =>
    let r2 := fin x * fin x + fin y * fin y
    let r := RF.sqrt r2
    let mx := (-fin y) * fin (circ : ℝ) / r
    let my := fin x * fin (circ : ℝ) / r
    let mz := fin 1.5 * fin (pol : ℝ) * RF.exp (-r2 / fin diam2)
    noNaN ⟨mx, my, mz⟩ pol

/-- NeelSkyrmion from config.go, with cellSizeX read at construction time. -/
def NeelSkyrmion (cellSizeX : ℝ) (charge pol : ℤ) : Config :=
  let w := 8 * cellSizeX
  let w2 := w * w
  fun x y _z =>
    let r2 := fin x * fin x + fin y * fin y
    let r := RF.sqrt r2
    let mz := fin 2 * fin (pol : ℝ) * (RF.exp (-r2 / fin w2) - fin 0.5)
    let mx := (fin x * fin (charge : ℝ) / r) * (fin 1 - RF.abs mz)
    let my := (fin y * fin (charge : ℝ) / r) * (fin 1 - RF.abs mz)
    noNaN ⟨mx, my, mz⟩ pol

/-- BlochSkyrmion from config.go, with cellSizeX read at construction time. -/
def BlochSkyrmion (cellSizeX : ℝ) (charge pol : ℤ) : Config :=
  let w := 8 * cellSizeX
  let w2 := w * w
  fun x y _z =>
    let r2 := fin x * fin x + fin y * fin y
    let r := RF.sqrt r2
    let mz := fin 2 * fin (pol : ℝ) * (RF.exp (-r2 / fin w2) - fin 0.5)
    let mx := ((-fin y) * fin (charge : ℝ) / r) * (fin 1 - RF.abs mz)
    let my := (fin x * fin (charge : ℝ) / r) * (fin 1 - RF.abs mz)
    noNaN ⟨mx, my, mz⟩ pol

/-- AntiVortex from config.go, with cellSizeX read at construction time. -/
def AntiVortex (cellSizeX : ℝ) (circ pol : ℤ) : Config :=
  let diam2 := 2 * Engine.sqr64 cellSizeX
  fun x y _z =>
    let r2 := fin x * fin x + fin y * fin y
    let r := RF.sqrt r2
    let mx := (-fin x) * fin (circ : ℝ) / r
    let my := fin y * fin (circ : ℝ) / r
    let mz := fin 1.5 * fin (pol : ℝ) * RF.exp (-r2 / fin diam2)
    noNaN ⟨mx, my, mz⟩ pol

/-- TwoDomain from config.go, with cellSizeX read at construction time. -/
def TwoDomain (cellSizeX mx1 my1 mz1 mxwall mywall mzwall mx2 my2 mz2 : ℝ) :
    Config :=
  let ww := 2 * cellSizeX
  fun x _y _z =>
    let m : Vec3 :=
      if x < 0 then ⟨fin mx1, fin my1, fin mz1⟩ else ⟨fin mx2, fin my2, fin mz2⟩
    let gauss := RF.exp (-(fin x / fin ww).sqr64)
    ⟨(fin 1 - gauss) * m.x + gauss * fin mxwall,
     (fin 1 - gauss) * m.y + gauss * fin mywall,
     (fin 1 - gauss) * m.z + gauss * fin mzwall⟩

/-- HelicalMag from config.go.  Note: the source applies no noNaN fallback
here. -/
def HelicalMag (Ld qx qy : ℝ) : Config :=
  fun x y _z =>
    let q_norm := RF.sqrt (fin qx * fin qx + fin qy * fin qy)
    let q_x := fin qx / q_norm
    let cos_theta := q_x
    let sin_theta := RF.sin (RF.acos cos_theta)
    let u := cos_theta * fin x + sin_theta * fin y
    let m_v := RF.cos (fin 2 * fin Real.pi * u / fin Ld)
    ⟨sin_theta * m_v, cos_theta * m_v,
     RF.sin (fin 2 * fin Real.pi * u / fin Ld)⟩

/-- The rotated coordinate u exactly as computed inside HelicalMag. -/
def helicalU (qx qy x y : ℝ) : RF :=
  let q_norm := RF.sqrt (fin qx * fin qx + fin qy * fin qy)
  let q_x := fin qx / q_norm
  let cos_theta := q_x
  let sin_theta := RF.sin (RF.acos cos_theta)
  cos_theta * fin x + sin_theta * fin y

/-- Following the spec's words, not the source: the helix phase coordinate
written in the spec as (qx*x + qy*y)/sqrt(qx^2 + qy^2), the frame aligned
with (qx, qy) for every sign of qy. -/
def specHelicalU (qx qy x y : ℝ) : ℝ :=
  (qx * x + qy * y) / Real.sqrt (qx ^ 2 + qy ^ 2)

/-- Config.RotZ from config.go: rotate the sampling point by -theta and the
resulting in-plane magnetization by +theta. -/
def Config.RotZ (c : Config) (θ : ℝ) : Config :=
  let cos := Real.cos θ
  let sin := Real.sin θ
  fun x y z =>
    let x_ := x * cos + y * sin
    let y_ := -x * sin + y * cos
    let m := c x_ y_ z
    let mx_ := m.x * fin cos - m.y * fin sin
    let my_ := m.x * fin sin + m.y * fin cos
    ⟨mx_, my_, m.z⟩

/-- Modelled from the spec: data.Vector.MAdd (declared outside src/) is the
component-wise combination "field(p) + weight*other(p)". -/
def Vec3.MAdd (v : Vec3) (weight : ℝ) (o : Vec3) : Vec3 :=
  ⟨v.x + fin weight * o.x, v.y + fin weight * o.y, v.z + fin weight * o.z⟩

/-- Config.Add from config.go: weighted superposition c + weight * other. -/
def Config.Add (c : Config) (weight : ℝ) (other : Config) : Config :=
  fun x y z => (c x y z).MAdd weight (other x y z)

/-- Modelled from the spec: the pseudo-random source (math/rand, outside
src/) is a deterministic stream fixed by the seed; src seed i is the i-th
Float64 draw of a generator seeded with seed, and the generator state is the
seed together with the current position in the stream. -/
structure Rng where
  src : ℤ → ℕ → ℝ
  seed : ℤ
  pos : ℕ

/-- rand.New(rand.NewSource(int64(seed))): a fresh generator at position 0. -/
def mkRng (src : ℤ → ℕ → ℝ) (seed : ℤ) : Rng := ⟨src, seed, 0⟩

/-- rng.Float64(): draw the next value and advance the stream. -/
def Rng.float64 (r : Rng) : ℝ × Rng :=
  (r.src r.seed r.pos, ⟨r.src, r.seed, r.pos + 1⟩)

/-- randomDir from config.go: anisotropic random unit vector, written in
state-passing style (the Go closure mutates rng in place). -/
def randomDir (rng : Rng) : Vec3 × Rng :=
  let p1 := rng.float64
  let theta := 2 * p1.1 * Real.pi
  let p2 := p1.2.float64
  let zc := 2 * (p2.1 - 0.5)
  let b := RF.sqrt (fin (1 - zc * zc))
  (⟨b * RF.cos (fin theta), b * RF.sin (fin theta), fin zc⟩, p2.2)

/-- RandomMagSeed from config.go, in state-passing style: the returned
closure ignores its coordinate arguments and draws from the generator, and
the initial generator state is built from the seed. -/
def RandomMagSeed (src : ℤ → ℕ → ℝ) (seed : ℤ) :
    (ℝ → ℝ → ℝ → Rng → Vec3 × Rng) × Rng :=
  (fun _x _y _z rng => randomDir rng, mkRng src seed)

/-- Evaluate a stateful configuration once per listed coordinate, threading
the generator state, and collect the returned vectors in call order. -/
def evalSeq (f : ℝ → ℝ → ℝ → Rng → Vec3 × Rng) :
    List (ℝ × ℝ × ℝ) → Rng → List Vec3
  | [], _ => []
  | c :: cs, rng =>
    let p := f c.1 c.2.1 c.2.2 rng
    p.1 :: evalSeq f cs p.2

/-- C9: TwoDomain on a mesh with nonzero cell size, evaluated at any point
with x = 0, returns exactly the wall vector: the Gaussian weight is
exp(-(0/ww)^2) = 1 and the blend (1-g)*domain + g*wall cancels the domain
term. -/
theorem twoDomain_wall_at_zero
    (c mx1 my1 mz1 mxwall mywall mzwall mx2 my2 mz2 y z : ℝ) (hc : c ≠ 0) :
    TwoDomain c mx1 my1 mz1 mxwall mywall mzwall mx2 my2 mz2 0 y z =
      ⟨fin mxwall, fin mywall, fin mzwall⟩ := by
  have hww : (2 : ℝ) * c ≠ 0 := mul_ne_zero two_ne_zero hc
  simp [TwoDomain, RF.sqr64, RF.fin_div_fin hww, Real.exp_zero]

/-- Witness for C9: cell size 1, wall vector (4,5,6), at (0, 7, 8). -/
theorem twoDomain_wall_at_zero_witness :
    TwoDomain 1 1 2 3 4 5 6 (-1) (-2) (-3) 0 7 8 = ⟨fin 4, fin 5, fin 6⟩ :=
  twoDomain_wall_at_zero 1 1 2 3 4 5 6 (-1) (-2) (-3) 7 8 one_ne_zero

/-- C8: zero-weight superposition is the identity on the base field: for any
field g whose value at the sampled point is finite in every component,
Uniform(1,0,0).Add(0, g) returns exactly (1,0,0) there, because Add computes
field + weight*other component-wise. -/
theorem add_zero_weight_identity (g : Config) (x y z ax ay az : ℝ)
    (hg : g x y z = ⟨fin ax, fin ay, fin az⟩) :
    (Uniform 1 0 0).Add 0 g x y z = ⟨fin 1, fin 0, fin 0⟩ := by
  simp [Config.Add, Uniform, Vec3.MAdd, hg]

/-- Witness for C8: g = Uniform(5,6,7) at the point (2,3,4). -/
theorem add_zero_weight_identity_witness :
    (Uniform 1 0 0).Add 0 (Uniform 5 6 7) 2 3 4 = ⟨fin 1, fin 0, fin 0⟩ :=
  add_zero_weight_identity (Uniform 5 6 7) 2 3 4 5 6 7 rfl

/-- C7: rotating by theta and back by -theta returns the original field's
value at every point whose in-plane magnetization components are finite; the
sampling coordinates compose to the identity and the two in-plane vector
rotations cancel, exactly over the reals. -/
theorem rotZ_roundtrip (c : Config) (θ x y z : ℝ) (ax ay : ℝ)
    (hx : (c x y z).x = fin ax) (hy : (c x y z).y = fin ay) :
    (c.RotZ θ).RotZ (-θ) x y z = c x y z := by
  have hpy := Real.sin_sq_add_cos_sq θ
  have h1 : (x * Real.cos (-θ) + y * Real.sin (-θ)) * Real.cos θ +
      (-x * Real.sin (-θ) + y * Real.cos (-θ)) * Real.sin θ = x := by
    rw [Real.cos_neg, Real.sin_neg]
    linear_combination x * hpy
  have h2 : -(x * Real.cos (-θ) + y * Real.sin (-θ)) * Real.sin θ +
      (-x * Real.sin (-θ) + y * Real.cos (-θ)) * Real.cos θ = y := by
    rw [Real.cos_neg, Real.sin_neg]
    linear_combination y * hpy
  rcases hm : c x y z with ⟨cx, cy, cz⟩
  rw [hm] at hx hy
  simp only at hx hy
  subst hx hy
  simp only [Config.RotZ]
  rw [h1, h2, hm]
  simp only [fin_mul_fin, fin_sub_fin, fin_add_fin, Real.cos_neg,
    Real.sin_neg, Vec3.mk.injEq, RF.fin.injEq]
  refine ⟨?_, ?_, trivial⟩
  · linear_combination ax * hpy
  · linear_combination ay * hpy

/-- Witness for C7: c = Uniform(1,2,3), theta = 1, at the point (4,5,6). -/
theorem rotZ_roundtrip_witness :
    ((Uniform 1 2 3).RotZ 1).RotZ (-1) 4 5 6 = Uniform 1 2 3 4 5 6 :=
  rotZ_roundtrip (Uniform 1 2 3) 1 4 5 6 1 2 rfl rfl

/-- A point off the vortex axis has positive squared radius. -/
lemma sq_sum_pos {x y : ℝ} (hxy : ¬(x = 0 ∧ y = 0)) : 0 < x * x + y * y := by
  rcases not_and_or.mp hxy with hx | hy
  · nlinarith [mul_self_pos.mpr hx, mul_self_nonneg y]
  · nlinarith [mul_self_pos.mpr hy, mul_self_nonneg x]

/-- For a nonzero wavevector, the in-plane norm dominates each component. -/
lemma abs_qx_le_norm (qx qy : ℝ) : |qx| ≤ Real.sqrt (qx * qx + qy * qy) := by
  rw [← Real.sqrt_mul_self_eq_abs qx]
  exact Real.sqrt_le_sqrt (by nlinarith [mul_self_nonneg qy])

/-- sin(acos(qx/q_norm)) as the source computes it equals |qy|/q_norm: the
branch of sin over acos is always nonnegative, so the sign of qy is lost. -/
lemma sin_acos_qx (qx qy : ℝ) (h : ¬(qx = 0 ∧ qy = 0)) :
    Real.sin (Real.arccos (qx / Real.sqrt (qx * qx + qy * qy))) =
      |qy| / Real.sqrt (qx * qx + qy * qy) := by
  have h2 := sq_sum_pos h
  have hn : 0 < Real.sqrt (qx * qx + qy * qy) := Real.sqrt_pos.mpr h2
  have hn2 : Real.sqrt (qx * qx + qy * qy) * Real.sqrt (qx * qx + qy * qy) =
      qx * qx + qy * qy := Real.mul_self_sqrt h2.le
  rw [Real.sin_arccos]
  have hq : 1 - (qx / Real.sqrt (qx * qx + qy * qy)) ^ 2 =
      (|qy| / Real.sqrt (qx * qx + qy * qy)) ^ 2 := by
    rw [div_pow, div_pow, sq_abs]
    field_simp
    nlinarith [hn2]
  rw [hq, Real.sqrt_sq (by positivity)]

/-- HelicalMag for a nonzero wavevector and nonzero Ld: every component is
finite and takes the source formulas, with sin_theta = |qy|/q_norm. -/
lemma helical_eval (Ld qx qy x y z : ℝ) (h : ¬(qx = 0 ∧ qy = 0))
    (hLd : Ld ≠ 0) :
    HelicalMag Ld qx qy x y z =
      ⟨fin (|qy| / Real.sqrt (qx * qx + qy * qy) *
         Real.cos (2 * Real.pi *
           (qx / Real.sqrt (qx * qx + qy * qy) * x +
            |qy| / Real.sqrt (qx * qx + qy * qy) * y) / Ld)),
       fin (qx / Real.sqrt (qx * qx + qy * qy) *
         Real.cos (2 * Real.pi *
           (qx / Real.sqrt (qx * qx + qy * qy) * x +
            |qy| / Real.sqrt (qx * qx + qy * qy) * y) / Ld)),
       fin (Real.sin (2 * Real.pi *
           (qx / Real.sqrt (qx * qx + qy * qy) * x +
            |qy| / Real.sqrt (qx * qx + qy * qy) * y) / Ld))⟩ := by
  have h2 := sq_sum_pos h
  have hn : 0 < Real.sqrt (qx * qx + qy * qy) := Real.sqrt_pos.mpr h2
  have hnne := ne_of_gt hn
  have hle1 : qx / Real.sqrt (qx * qx + qy * qy) ≤ 1 :=
    (div_le_one hn).mpr ((le_abs_self qx).trans (abs_qx_le_norm qx qy))
  have hge1 : -1 ≤ qx / Real.sqrt (qx * qx + qy * qy) := by
    rw [le_div_iff₀ hn]
    nlinarith [neg_abs_le qx, abs_qx_le_norm qx qy]
  simp [HelicalMag, RF.sqrt_fin h2.le, RF.fin_div_fin hnne,
    RF.acos_fin hge1 hle1, sin_acos_qx qx qy h, RF.fin_div_fin hLd]

/-- C6: HelicalMag with a nonzero wavevector and nonzero Ld returns a vector
of squared norm exactly 1 over the reals: the in-plane part carries cos^2 of
the phase split by sin_theta^2 + cos_theta^2 = 1, and the z part carries
sin^2 of the same phase. -/
theorem helical_unit_norm (Ld qx qy x y z : ℝ) (h : ¬(qx = 0 ∧ qy = 0))
    (hLd : Ld ≠ 0) :
    Vec3.normSq (HelicalMag Ld qx qy x y z) = fin 1 := by
  rw [helical_eval Ld qx qy x y z h hLd]
  have h2 := sq_sum_pos h
  have hn : 0 < Real.sqrt (qx * qx + qy * qy) := Real.sqrt_pos.mpr h2
  have hn2 : Real.sqrt (qx * qx + qy * qy) * Real.sqrt (qx * qx + qy * qy) =
      qx * qx + qy * qy := Real.mul_self_sqrt h2.le
  have hst : |qy| / Real.sqrt (qx * qx + qy * qy) *
        (|qy| / Real.sqrt (qx * qx + qy * qy)) +
      qx / Real.sqrt (qx * qx + qy * qy) *
        (qx / Real.sqrt (qx * qx + qy * qy)) = 1 := by
    field_simp
    ring
  simp only [Vec3.normSq, fin_mul_fin, fin_add_fin, RF.fin.injEq]
  have hpy := Real.sin_sq_add_cos_sq (2 * Real.pi *
    (qx / Real.sqrt (qx * qx + qy * qy) * x +
     |qy| / Real.sqrt (qx * qx + qy * qy) * y) / Ld)
  nlinarith [hst, hpy]

/-- Witness for C6: Ld = 1, wavevector (1,0), at the point (0,0,0). -/
theorem helical_unit_norm_witness :
    Vec3.normSq (HelicalMag 1 1 0 0 0 0) = fin 1 :=
  helical_unit_norm 1 1 0 0 0 0 (by norm_num) one_ne_zero

/-- C5 (counterexample): with wavevector (0,-1) the rotated coordinate u
computed by the source at (x,y) = (0,1) is 1, while the spec's formula
(qx*x + qy*y)/sqrt(qx^2+qy^2) gives -1: the frame is not aligned with
(qx,qy) when qy < 0. -/
theorem helicalU_ne_spec_at_point :
    helicalU 0 (-1) 0 1 ≠ fin (specHelicalU 0 (-1) 0 1) := by
  have hs1 : RF.sqrt (fin 1) = fin 1 := by
    rw [RF.sqrt_fin zero_le_one, Real.sqrt_one]
  have h1 : helicalU 0 (-1) 0 1 = fin 1 := by
    simp [helicalU, hs1, RF.fin_div_fin one_ne_zero,
      RF.acos_fin (by norm_num : (-1 : ℝ) ≤ 0) (by norm_num : (0 : ℝ) ≤ 1),
      Real.arccos_zero, Real.sin_pi_div_two]
  have h2 : specHelicalU 0 (-1) 0 1 = -1 := by
    simp [specHelicalU]
  rw [h1, h2]
  simp only [ne_eq, RF.fin.injEq]
  norm_num

/-- C5 (amended): for every nonzero wavevector, the rotated coordinate u
computed by HelicalMag equals (qx*x + |qy|*y)/sqrt(qx^2+qy^2): the frame is
aligned with (qx,|qy|), which matches the claimed (qx,qy) alignment exactly
when qy is nonnegative. -/
theorem helicalU_abs_qy (qx qy x y : ℝ) (h : ¬(qx = 0 ∧ qy = 0)) :
    helicalU qx qy x y =
      fin ((qx * x + |qy| * y) / Real.sqrt (qx * qx + qy * qy)) := by
  have h2 := sq_sum_pos h
  have hn : 0 < Real.sqrt (qx * qx + qy * qy) := Real.sqrt_pos.mpr h2
  have hnne := ne_of_gt hn
  have hle1 : qx / Real.sqrt (qx * qx + qy * qy) ≤ 1 :=
    (div_le_one hn).mpr ((le_abs_self qx).trans (abs_qx_le_norm qx qy))
  have hge1 : -1 ≤ qx / Real.sqrt (qx * qx + qy * qy) := by
    rw [le_div_iff₀ hn]
    nlinarith [neg_abs_le qx, abs_qx_le_norm qx qy]
  have : qx / Real.sqrt (qx * qx + qy * qy) * x +
      |qy| / Real.sqrt (qx * qx + qy * qy) * y =
      (qx * x + |qy| * y) / Real.sqrt (qx * qx + qy * qy) := by
    field_simp
  simp [helicalU, RF.sqrt_fin h2.le, RF.fin_div_fin hnne,
    RF.acos_fin hge1 hle1, sin_acos_qx qx qy h, this]

/-- Witness for the amended C5 theorem: wavevector (0,1) at (x,y) = (2,3). -/
theorem helicalU_abs_qy_witness :
    helicalU 0 1 2 3 =
      fin ((0 * 2 + |(1 : ℝ)| * 3) / Real.sqrt (0 * 0 + 1 * 1)) :=
  helicalU_abs_qy 0 1 2 3 (by norm_num)

/-- Evaluating a coordinate-blind stateful field over two coordinate lists of
equal length produces identical output sequences. -/
lemma evalSeq_coord_free (f : Rng → Vec3 × Rng) (cs1 cs2 : List (ℝ × ℝ × ℝ))
    (rng : Rng) (h : cs1.length = cs2.length) :
    evalSeq (fun _x _y _z r => f r) cs1 rng =
    evalSeq (fun _x _y _z r => f r) cs2 rng := by
  induction cs1 generalizing cs2 rng with
  | nil =>
    cases cs2 with
    | nil => rfl
    | cons b m => simp at h
  | cons a l ih =>
    cases cs2 with
    | nil => simp at h
    | cons b m =>
      simp only [evalSeq]
      exact congrArg _ (ih m (f rng).2 (by simpa using h))

/-- C4: the field built by RandomMagSeed depends only on the seed and the
call order, never on the coordinates: two equally long evaluation sequences
at arbitrary, possibly different, coordinates produce identical vector
sequences for every seed and every underlying pseudo-random stream. -/
theorem randomMagSeed_coord_independent (src : ℤ → ℕ → ℝ) (seed : ℤ)
    (cs1 cs2 : List (ℝ × ℝ × ℝ)) (h : cs1.length = cs2.length) :
    evalSeq (RandomMagSeed src seed).1 cs1 (RandomMagSeed src seed).2 =
    evalSeq (RandomMagSeed src seed).1 cs2 (RandomMagSeed src seed).2 :=
  evalSeq_coord_free randomDir cs1 cs2 (mkRng src seed) h

/-- Witness for C4: seed 42 over the all-zero stream, one draw at (1,2,3)
versus one draw at (4,5,6). -/
theorem randomMagSeed_coord_independent_witness :
    evalSeq (RandomMagSeed (fun _ _ => 0) 42).1 [(1, 2, 3)]
      (RandomMagSeed (fun _ _ => 0) 42).2 =
    evalSeq (RandomMagSeed (fun _ _ => 0) 42).1 [(4, 5, 6)]
      (RandomMagSeed (fun _ _ => 0) 42).2 :=
  randomMagSeed_coord_independent (fun _ _ => 0) 42 [(1, 2, 3)] [(4, 5, 6)] rfl

end Engine

namespace Httpfs

/-- Modelled from the spec: the remote-store operations Remove and Append
(declared outside src/) against an abstract store state σ; each returns an
optional error message and the successor state, matching the sink contract
"remove(path) -> Error|nil" and append-based writes. -/
structure FSOps (σ : Type) where
  remove : String → σ → Option String × σ
  append : String → List Nat → σ → Option String × σ

/-- Touch from util.go: an empty append. -/
def Touch {σ : Type} (ops : FSOps σ) (url : String) (s : σ) :
    Option String × σ :=
  ops.append url [] s

/-- The WriteCloseFlusher value Create returns: a buffered writer over an
appendWriter for the given URL (buffering is not modelled; the claim only
concerns whether a writer is returned). -/
structure BufWriter where
  url : String

/-- Create from util.go: discard the result of Remove, then Touch; fail
exactly when Touch fails, otherwise return the buffered writer. -/
def Create {σ : Type} (ops : FSOps σ) (url : String) (s : σ) :
    Except String BufWriter × σ :=
  let s1 := (ops.remove url s).2
  match Touch ops url s1 with
  | (some e, s2) => (Except.error e, s2)
  | (none, s2) => (Except.ok ⟨url⟩, s2)

/-- C10: Create fails exactly when the Touch (empty append) that creates the
file fails, propagating that error; the error outcome of the preceding
Remove is discarded, so two operation sets that append identically and whose
removals leave the store in the same state give Create the same result even
when one removal reports an error. -/
theorem create_error_iff_touch {σ : Type} (ops ops2 : FSOps σ)
    (url : String) (s : σ) (e : String)
    (happ : ops.append = ops2.append)
    (hrem : (ops.remove url s).2 = (ops2.remove url s).2) :
    (Create ops url s).1 = (Create ops2 url s).1 ∧
    ((Create ops url s).1 = Except.error e ↔
      (Touch ops url (ops.remove url s).2).1 = some e) := by
  constructor
  · simp only [Create, Touch, happ, hrem]
  · simp only [Create, Touch]
    rcases hh : ops.append url [] (ops.remove url s).2 with ⟨oe, s2⟩
    cases oe <;> simp [hh]

/-- Witness for C10: over a one-point store, an operation set whose Remove
always reports an error versus one whose Remove succeeds; Create succeeds in
both and never returns the discarded removal error. -/
theorem create_error_iff_touch_witness :
    (Create (⟨fun _u s => (some "removefail", s), fun _u _p s => (none, s)⟩ :
        FSOps Unit) "a" ()).1 =
      (Create (⟨fun _u s => (none, s), fun _u _p s => (none, s)⟩ :
        FSOps Unit) "a" ()).1 ∧
    ((Create (⟨fun _u s => (some "removefail", s), fun _u _p s => (none, s)⟩ :
        FSOps Unit) "a" ()).1 = Except.error "boom" ↔
      (Touch (⟨fun _u s => (some "removefail", s), fun _u _p s => (none, s)⟩ :
          FSOps Unit) "a"
        ((⟨fun _u s => (some "removefail", s), fun _u _p s => (none, s)⟩ :
          FSOps Unit).remove "a" ()).2).1 = some "boom") :=
  create_error_iff_touch
    (⟨fun _u s => (some "removefail", s), fun _u _p s => (none, s)⟩ :
      FSOps Unit)
    (⟨fun _u s => (none, s), fun _u _p s => (none, s)⟩ : FSOps Unit)
    "a" () "boom" rfl rfl

end Httpfs

namespace Engine

open RF

/-- C2: Vortex, AntiVortex, NeelSkyrmion and BlochSkyrmion evaluated at
(0,0,z) return exactly (0,0,pol): the in-plane components are 0/0, hence NaN,
so the noNaN fallback fires uniformly.  Proved for every cell size, every
circulation/charge and every polarization, in particular pol = 1 and
pol = -1. -/
theorem origin_fallback (c : ℝ) (circ pol : ℤ) (zc : ℝ) :
    Vortex c circ pol 0 0 zc = ⟨fin 0, fin 0, fin (pol : ℝ)⟩ ∧
    AntiVortex c circ pol 0 0 zc = ⟨fin 0, fin 0, fin (pol : ℝ)⟩ ∧
    NeelSkyrmion c circ pol 0 0 zc = ⟨fin 0, fin 0, fin (pol : ℝ)⟩ ∧
    BlochSkyrmion c circ pol 0 0 zc = ⟨fin 0, fin 0, fin (pol : ℝ)⟩ := by
  have hs : RF.sqrt (fin 0) = fin 0 := by
    rw [RF.sqrt_fin le_rfl, Real.sqrt_zero]
  refine ⟨?_, ?_, ?_, ?_⟩ <;>
    simp [Vortex, AntiVortex, NeelSkyrmion, BlochSkyrmion, hs, noNaN]

/-- Vortex off the core axis: all components are finite and take the source
formulas literally. -/
lemma vortex_eval (c : ℝ) (circ pol : ℤ) (x y z : ℝ)
    (hxy : ¬(x = 0 ∧ y = 0)) (hc : c ≠ 0) :
    Vortex c circ pol x y z =
      ⟨fin (-y * (circ : ℝ) / Real.sqrt (x * x + y * y)),
       fin (x * (circ : ℝ) / Real.sqrt (x * x + y * y)),
       fin (1.5 * (pol : ℝ) *
         Real.exp (-(x * x + y * y) / (2 * Engine.sqr64 c)))⟩ := by
  have h2 := sq_sum_pos hxy
  have hrne : Real.sqrt (x * x + y * y) ≠ 0 := ne_of_gt (Real.sqrt_pos.mpr h2)
  have hd : (2 : ℝ) * Engine.sqr64 c ≠ 0 := by
    have hcc : c * c ≠ 0 := mul_ne_zero hc hc
    simp [Engine.sqr64, hcc]
  simp [Vortex, noNaN, RF.sqrt_fin h2.le, RF.fin_div_fin hrne, RF.fin_div_fin hd]

/-- AntiVortex off the core axis: all components are finite and take the
source formulas literally. -/
lemma antivortex_eval (c : ℝ) (circ pol : ℤ) (x y z : ℝ)
    (hxy : ¬(x = 0 ∧ y = 0)) (hc : c ≠ 0) :
    AntiVortex c circ pol x y z =
      ⟨fin (-x * (circ : ℝ) / Real.sqrt (x * x + y * y)),
       fin (y * (circ : ℝ) / Real.sqrt (x * x + y * y)),
       fin (1.5 * (pol : ℝ) *
         Real.exp (-(x * x + y * y) / (2 * Engine.sqr64 c)))⟩ := by
  have h2 := sq_sum_pos hxy
  have hrne : Real.sqrt (x * x + y * y) ≠ 0 := ne_of_gt (Real.sqrt_pos.mpr h2)
  have hd : (2 : ℝ) * Engine.sqr64 c ≠ 0 := by
    have hcc : c * c ≠ 0 := mul_ne_zero hc hc
    simp [Engine.sqr64, hcc]
  simp [AntiVortex, noNaN, RF.sqrt_fin h2.le, RF.fin_div_fin hrne,
    RF.fin_div_fin hd]

/-- C1 (counterexample): Vortex with circulation 1 and polarization 1 on a
unit-cell mesh, evaluated at (1,0,0), is not the NaN-fallback vector
(0,0,pol), yet its squared norm differs from 1: the smoothed core adds a
nonzero out-of-plane component to the unit in-plane part. -/
theorem vortex_norm_ne_one_at_point :
    Vortex 1 1 1 1 0 0 ≠ ⟨fin 0, fin 0, fin 1⟩ ∧
    Vec3.normSq (Vortex 1 1 1 1 0 0) ≠ fin 1 := by
  have he := vortex_eval 1 1 1 1 0 0 (by norm_num) one_ne_zero
  have hs1 : Real.sqrt (1 * 1 + 0 * 0 : ℝ) = 1 := by
    norm_num
  have he2 : Vortex 1 1 1 1 0 0 =
      ⟨fin 0, fin 1, fin (1.5 * Real.exp (-(1 / 2)))⟩ := by
    rw [he, hs1]
    norm_num [Engine.sqr64]
  rw [he2]
  constructor
  · simp
  · have hep := Real.exp_pos (-(1 / 2) : ℝ)
    simp only [Vec3.normSq, fin_mul_fin, fin_add_fin, ne_eq, RF.fin.injEq]
    intro h
    nlinarith

/-- C1 (amended): at every non-fallback point of a Vortex or AntiVortex with
unit circulation on a mesh with nonzero cell size, the squared norm equals
1 + mz * mz with mz nonzero, hence it strictly differs from 1: the in-plane
part alone is unit, and exact unit norm fails wherever the output is defined
(only Helical is exactly unit-norm, proved separately). -/
theorem vortex_antivortex_normSq (c : ℝ) (circ pol : ℤ) (x y z : ℝ)
    (hc : c ≠ 0) (hcirc : circ = 1 ∨ circ = -1) (hpol : pol = 1 ∨ pol = -1)
    (hxy : ¬(x = 0 ∧ y = 0)) :
    ∃ t : ℝ, t ≠ 0 ∧
      Vec3.normSq (Vortex c circ pol x y z) = fin (1 + t * t) ∧
      Vec3.normSq (AntiVortex c circ pol x y z) = fin (1 + t * t) ∧
      1 + t * t ≠ 1 := by
  have h2 := sq_sum_pos hxy
  have hrne : Real.sqrt (x * x + y * y) ≠ 0 := ne_of_gt (Real.sqrt_pos.mpr h2)
  have hr : Real.sqrt (x * x + y * y) * Real.sqrt (x * x + y * y) =
      x * x + y * y := Real.mul_self_sqrt h2.le
  have hcr : (circ : ℝ) * (circ : ℝ) = 1 := by
    rcases hcirc with rfl | rfl <;> norm_num
  have hin : ∀ a b : ℝ, a * a + b * b = x * x + y * y →
      a * (circ : ℝ) / Real.sqrt (x * x + y * y) *
        (a * (circ : ℝ) / Real.sqrt (x * x + y * y)) +
      b * (circ : ℝ) / Real.sqrt (x * x + y * y) *
        (b * (circ : ℝ) / Real.sqrt (x * x + y * y)) = 1 := by
    intro a b hab
    field_simp
    nlinarith [hr, hcr, hab]
  refine ⟨1.5 * (pol : ℝ) * Real.exp (-(x * x + y * y) / (2 * Engine.sqr64 c)),
    ?_, ?_, ?_, ?_⟩
  · have hp : (pol : ℝ) ≠ 0 := by rcases hpol with rfl | rfl <;> norm_num
    exact mul_ne_zero (mul_ne_zero (by norm_num) hp)
      (Real.exp_ne_zero _)
  · rw [vortex_eval c circ pol x y z hxy hc]
    simp only [Vec3.normSq, fin_mul_fin, fin_add_fin, RF.fin.injEq]
    have := hin (-y) x (by ring)
    nlinarith [this]
  · rw [antivortex_eval c circ pol x y z hxy hc]
    simp only [Vec3.normSq, fin_mul_fin, fin_add_fin, RF.fin.injEq]
    have := hin (-x) y (by ring)
    nlinarith [this]
  · have hp : (pol : ℝ) ≠ 0 := by rcases hpol with rfl | rfl <;> norm_num
    have ht : 1.5 * (pol : ℝ) *
        Real.exp (-(x * x + y * y) / (2 * Engine.sqr64 c)) ≠ 0 :=
      mul_ne_zero (mul_ne_zero (by norm_num) hp) (Real.exp_ne_zero _)
    have := mul_self_pos.mpr ht
    intro h
    linarith

/-- Witness for the amended C1 theorem: cell size 1, circulation 1,
polarization 1, at the point (1,0,0). -/
theorem vortex_antivortex_normSq_witness :
    ∃ t : ℝ, t ≠ 0 ∧
      Vec3.normSq (Vortex 1 1 1 1 0 0) = fin (1 + t * t) ∧
      Vec3.normSq (AntiVortex 1 1 1 1 0 0) = fin (1 + t * t) ∧
      1 + t * t ≠ 1 :=
  vortex_antivortex_normSq 1 1 1 1 0 0 one_ne_zero (Or.inl rfl) (Or.inl rfl)
    (by norm_num)

/-- C3 (code behavior at the failing input): HelicalMag with the degenerate
wavevector qx = qy = 0 propagates NaN into all three components, for every
Ld and every coordinate: q_x = 0/0 is NaN and no fallback is applied. -/
theorem helical_zero_wavevector_all_nan (Ld x y z : ℝ) :
    HelicalMag Ld 0 0 x y z = ⟨RF.nan, RF.nan, RF.nan⟩ := by
  have hs : RF.sqrt (fin 0) = fin 0 := by
    rw [RF.sqrt_fin le_rfl, Real.sqrt_zero]
  simp [HelicalMag, hs]

end Engine

